import Mathlib

deriving instance DecidableEq for Except

/-!
Shallow embedding of `const-array` (`src/lib.rs`), a fixed-capacity
stack-allocated array `ConstArray<T, N>` backed by `[MaybeUninit<T>; N]`
plus a `len : usize` counting the initialized prefix.

Modelling conventions:
* The backing buffer `[MaybeUninit<T>; N]` becomes `buf : List (Option α)`;
  a slot holding `some v` is an initialized slot holding `v`, a slot holding
  `none` is an uninitialized `MaybeUninit` slot.  In every state produced by
  the safe API, `buf.length = N`.
* `assume_init_read` / `assume_init_ref` on a slot returns the slot content
  as an `Option α`; obtaining `none` from it means the Rust code read
  uninitialized memory (undefined behavior).
* A Rust runtime panic (out-of-bounds indexing into the buffer) and a
  loop that indexes past the buffer are modelled by an `Option`-valued
  result being `none`, or by the dedicated `ReadResult.oob` constructor.
* `usize` arithmetic here never overflows (all quantities are bounded by
  `N + 1`), so plain `Nat` is used.
-/

/-- The `ConstArray<T, N>` struct: `buf: [MaybeUninit<T>; N]`, `len: usize`.
`buf` is a list of slots (`none` = uninitialized); the safe API keeps
`buf.length = N`. -/
structure ConstArray (α : Type) (N : Nat) where
  buf : List (Option α)
  len : Nat
deriving DecidableEq

namespace ConstArray

variable {α : Type} {N : Nat}

/-- `ConstArray::uninit()`: all `N` slots uninitialized, `len = 0`. -/
def uninit : ConstArray α N :=
  { buf := List.replicate N none, len := 0 }

/-- `ConstArray::len()`. -/
def length (a : ConstArray α N) : Nat :=
  a.len

/-- `ConstArray::capacity()`: returns the const generic `N`. -/
def capacity (_ : ConstArray α N) : Nat :=
  N

/-- `ConstArray::is_empty()`. -/
def is_empty (a : ConstArray α N) : Bool :=
  a.len == 0

/-- `ConstArray::is_full()`. -/
def is_full (a : ConstArray α N) : Bool :=
  a.len == N

/-- The write loop of `ConstArray::new`: `while i < W { buf[i] = array[i]; i += 1 }`.
Rust's `buf[i]` panics when `i ≥ buf.length`; the panic is modelled by
returning `none`.  (The source comment claims "We already checked that
W < N", but no such check exists in the code.) -/
def newLoop (buf : List (Option α)) : List α → Nat → Option (List (Option α))
  | [], _ => some buf
  | x :: rest, i =>
    if i < buf.length then newLoop (buf.set i (some x)) rest (i + 1)
    else none

/-- `ConstArray::new::<W>(array: [T; W])`: starts from a fully uninitialized
buffer of `N` slots, moves the `W` values in at indices `0, 1, …`, and sets
`len = W`.  The result is `none` exactly when the write loop panics. -/
def new (xs : List α) : Option (ConstArray α N) :=
  (newLoop (List.replicate N none) xs 0).map (fun buf => { buf := buf, len := xs.length })

/-- `ConstArray::push_front(item)`: if full, `Err(item)` and no mutation.
Otherwise `ptr::copy(ptr, ptr.add(1), len)` moves slots `0..len` to
`1..len+1` (slot positions above `len` keep their old content), the item is
written to slot `0`, and `len` is incremented. -/
def push_front (a : ConstArray α N) (item : α) : Except α Unit × ConstArray α N :=
  if a.is_full then (.error item, a)
  else (.ok (),
    { buf := some item :: (a.buf.take a.len ++ a.buf.drop (a.len + 1)),
      len := a.len + 1 })

/-- `ConstArray::push_back(item)`: if full, `Err(item)` and no mutation.
Otherwise writes the item into slot `len` and increments `len`. -/
def push_back (a : ConstArray α N) (item : α) : Except α Unit × ConstArray α N :=
  if a.is_full then (.error item, a)
  else (.ok (), { buf := a.buf.set a.len (some item), len := a.len + 1 })

/-- `ConstArray::pop_front()`: `None` when `len = 0`; otherwise reads slot `0`
(`assume_init_read`, the payload `Option α` is `none` iff the slot was
uninitialized, i.e. UB), decrements `len`, and
`ptr::copy(ptr.add(1), ptr, len - 1)` moves slots `1..len` down to
`0..len-1` (slot positions from `len - 1` up keep their old content). -/
def pop_front (a : ConstArray α N) : Option (Option α) × ConstArray α N :=
  if a.len = 0 then (none, a)
  else (some (a.buf.getD 0 none),
    { buf := (a.buf.drop 1).take (a.len - 1) ++ a.buf.drop (a.len - 1),
      len := a.len - 1 })

/-- `ConstArray::pop_back()`: `None` when `len = 0`; otherwise reads slot
`len - 1` and decrements `len`.  The buffer is not touched (the vacated slot
keeps its stale bits). -/
def pop_back (a : ConstArray α N) : Option (Option α) × ConstArray α N :=
  if a.len = 0 then (none, a)
  else (some (a.buf.getD (a.len - 1) none), { a with len := a.len - 1 })

/-- `ConstArray::as_slice()`: `slice::from_raw_parts(buf.as_ptr(), len)` —
the first `len` slots, viewed as values.  A `none` entry in the result means
the slice exposes an uninitialized slot (UB); in every state the safe API
produces, all entries are `some`. -/
def as_slice (a : ConstArray α N) : List (Option α) :=
  a.buf.take a.len

/-- Outcome of `ConstArray::get(index)`: `absent` is Rust `None`, `ref slot`
is Rust `Some(&slot)` where `slot = none` means the returned reference points
at an uninitialized slot (UB), `oob` is the panic of `buf[index]` when
`index` is outside the backing buffer. -/
inductive ReadResult (α : Type) where
  | absent
  | ref (slot : Option α)
  | oob
deriving DecidableEq

/-- `ConstArray::get(index)`: the source tests `index <= self.len()` (note:
not `<`) and returns `Some(buf[index].assume_init_ref())` on success. -/
def get (a : ConstArray α N) (index : Nat) : ReadResult α :=
  if index ≤ a.len then
    match a.buf[index]? with
    | some slot => .ref slot
    | none => .oob
  else .absent

/-- One iteration of `Clone::clone`'s loop:
`let _ = new_arr.push_back(new_arr.get(i).unwrap().clone());`.
Note the source reads `new_arr.get(i)` — the array under construction — not
`self.get(i)`.  `ref (some v)` pushes a duplicate of `v` (duplication of a
value is the value itself in this model) and discards the push result
(`let _ =`); `ref none` clones an uninitialized slot (UB, modelled `none`);
`absent` makes `.unwrap()` panic; `oob` is an indexing panic. -/
def cloneStep (new_arr : ConstArray α N) (i : Nat) : Option (ConstArray α N) :=
  match new_arr.get i with
  | .ref (some v) => some (new_arr.push_back v).2
  | .ref none => none
  | .absent => none
  | .oob => none

/-- `Clone::clone for ConstArray<T, N>`: starts from `uninit()` and runs the
loop body `cloneStep` for `i in 0..self.len()`. -/
def clone (a : ConstArray α N) : Option (ConstArray α N) :=
  (List.range a.len).foldlM cloneStep ConstArray.uninit

/-- `ConstArray::from_raw_parts(array, len)`: reassembles the struct from its
fields, trusting the caller-supplied `len`. -/
def from_raw_parts (buf : List (Option α)) (len : Nat) : ConstArray α N :=
  { buf := buf, len := len }

/-- `ConstArray::into_raw_parts()`: hands back `(buf, len)`; `mem::forget(self)`
prevents `Drop::drop` from running. -/
def into_raw_parts (a : ConstArray α N) : List (Option α) × Nat :=
  (a.buf, a.len)

/-- `ConstArray::to_array()`: hands back the raw buffer; `mem::forget(self)`
prevents `Drop::drop` from running. -/
def to_array (a : ConstArray α N) : List (Option α) :=
  a.buf

/-- The per-element teardowns performed when a container is consumed by
`into_raw_parts`: none at all, because `into_raw_parts` calls
`core::mem::forget(self)` before returning, so `Drop::drop` never runs. -/
def into_raw_parts_teardowns (_ : ConstArray α N) : List (Option α) :=
  []

/-- The per-element teardowns performed when a container is consumed by
`to_array`: none, for the same `core::mem::forget(self)` reason. -/
def to_array_teardowns (_ : ConstArray α N) : List (Option α) :=
  []

/-- `Drop::drop`: `for i in 0..self.len() { buf[i].assume_init_drop() }`
followed by `self.len = 0`.  Returns the sequence of slot contents handed to
`assume_init_drop`, in loop order, together with the post-drop state. -/
def drop_run (a : ConstArray α N) : List (Option α) × ConstArray α N :=
  ((List.range a.len).map (fun i => a.buf.getD i none), { a with len := 0 })

/-- Structural well-formedness every safe-API state enjoys: the backing
buffer really has `N` slots and the initialized prefix fits in it. -/
def wf (a : ConstArray α N) : Prop :=
  a.buf.length = N ∧ a.len ≤ N

instance (a : ConstArray α N) : Decidable a.wf := by
  unfold wf; infer_instance

end ConstArray

/-- A double-ended operation applied to a container. -/
inductive Op (α : Type) where
  | pushF (v : α)
  | pushB (v : α)
  | popF
  | popB
deriving DecidableEq

/-- Observable outcome of one operation: `pushed` is `Ok(())`, `rejected v`
is `Err(v)`, `popped b` is `Some(b)`, `isEmpty` is `None`.  The popped
payload type `β` is `Option α` on the code side (a read slot) and `α` on the
reference-deque side. -/
inductive OpResult (α β : Type) where
  | pushed
  | rejected (v : α)
  | popped (v : β)
  | isEmpty
deriving DecidableEq

/-- Maps the popped payload of an `OpResult`. -/
def OpResult.mapPopped (f : β → γ) : OpResult α β → OpResult α γ
  | .pushed => .pushed
  | .rejected v => .rejected v
  | .popped b => .popped (f b)
  | .isEmpty => .isEmpty

namespace ConstArray

variable {α : Type} {N : Nat}

/-- One `Op` against a `ConstArray`, returning the next state and outcome. -/
def stepC (a : ConstArray α N) : Op α → ConstArray α N × OpResult α (Option α)
  | .pushF v =>
    match a.push_front v with
    | (.ok _, c) => (c, .pushed)
    | (.error x, c) => (c, .rejected x)
  | .pushB v =>
    match a.push_back v with
    | (.ok _, c) => (c, .pushed)
    | (.error x, c) => (c, .rejected x)
  | .popF =>
    match a.pop_front with
    | (none, c) => (c, .isEmpty)
    | (some s, c) => (c, .popped s)
  | .popB =>
    match a.pop_back with
    | (none, c) => (c, .isEmpty)
    | (some s, c) => (c, .popped s)

/-- Runs a list of operations against a `ConstArray`, collecting outcomes. -/
def runC (a : ConstArray α N) : List (Op α) → ConstArray α N × List (OpResult α (Option α))
  | [] => (a, [])
  | op :: rest =>
    let s := stepC a op
    let r := runC s.1 rest
    (r.1, s.2 :: r.2)

end ConstArray

/-- Modelled from the spec: the reference bounded double-ended queue of the
"Order preservation under mixed operations" property — a plain list of at
most `N` values, front at the head.  A push on a full deque is rejected with
its argument; pops take from the head / the last position. -/
def refStep (N : Nat) (l : List α) : Op α → List α × OpResult α α
  | .pushF v => if l.length = N then (l, .rejected v) else (v :: l, .pushed)
  | .pushB v => if l.length = N then (l, .rejected v) else (l ++ [v], .pushed)
  | .popF =>
    match l with
    | [] => ([], .isEmpty)
    | x :: rest => (rest, .popped x)
  | .popB =>
    match l.getLast? with
    | none => (l, .isEmpty)
    | some x => (l.dropLast, .popped x)

/-- Modelled from the spec: runs a list of operations against the reference
deque, collecting outcomes. -/
def refRun (N : Nat) (l : List α) : List (Op α) → List α × List (OpResult α α)
  | [] => (l, [])
  | op :: rest =>
    let s := refStep N l op
    let r := refRun N s.1 rest
    (r.1, s.2 :: r.2)

/-- A push-only operation (for the capacity-invariant claim). -/
inductive PushOp (α : Type) where
  | front (v : α)
  | back (v : α)
deriving DecidableEq

namespace ConstArray

variable {α : Type} {N : Nat}

/-- Runs a sequence of pushes (discarding the `Result`s, as a caller that
ignores them would). -/
def runPushOps (a : ConstArray α N) : List (PushOp α) → ConstArray α N
  | [] => a
  | .front v :: rest => runPushOps (a.push_front v).2 rest
  | .back v :: rest => runPushOps (a.push_back v).2 rest

/-- States reachable through the safe public API, starting from the public
constructors `uninit` and `new` (`from_array` is `new` at `W = N`).
`from_raw_parts` is `unsafe` and excluded. -/
inductive Reachable : ConstArray α N → Prop where
  | uninit : Reachable ConstArray.uninit
  | ofNew (xs : List α) (c : ConstArray α N) : new xs = some c → Reachable c
  | pushF (a : ConstArray α N) (v : α) : Reachable a → Reachable (a.push_front v).2
  | pushB (a : ConstArray α N) (v : α) : Reachable a → Reachable (a.push_back v).2
  | popF (a : ConstArray α N) : Reachable a → Reachable a.pop_front.2
  | popB (a : ConstArray α N) : Reachable a → Reachable a.pop_back.2

end ConstArray

namespace ConstArray

variable {α : Type} {N : Nat}

/-- Taking one past a freshly set index splits off the new element. -/
theorem take_set_succ (buf : List (Option α)) (i : Nat) (x : Option α)
    (hi : i < buf.length) : (buf.set i x).take (i + 1) = buf.take i ++ [x] := by
  have h1 : List.take i (buf.set i x) = List.take i buf := by
    rw [List.set_take]
    exact List.set_eq_of_length_le (by simp)
  have h2 : (buf.set i x)[i]? = some x := List.getElem?_set_eq_of_lt _ hi
  rw [List.take_succ, h1, h2]
  rfl

/-- When all writes fit, the `new` loop fills `xs` in starting at index `i`. -/
theorem newLoop_eq_some : ∀ (xs : List α) (buf : List (Option α)) (i : Nat),
    i + xs.length ≤ buf.length →
    newLoop buf xs i = some (buf.take i ++ xs.map some ++ buf.drop (i + xs.length))
  | [], buf, i, _ => by
    simp [newLoop]
  | x :: rest, buf, i, h => by
    have hi : i < buf.length := by
      simp only [List.length_cons] at h; omega
    have hrec := newLoop_eq_some rest (buf.set i (some x)) (i + 1)
      (by simp only [List.length_set, List.length_cons] at h ⊢; omega)
    rw [newLoop, if_pos hi, hrec]
    have hdrop : (buf.set i (some x)).drop (i + 1 + rest.length) =
        buf.drop (i + 1 + rest.length) :=
      List.drop_set_of_lt _ _ (by omega)
    rw [take_set_succ buf i (some x) hi, hdrop]
    have harith : i + (rest.length + 1) = i + 1 + rest.length := by omega
    simp [List.append_assoc, harith]

/-- When the writes do not fit, the `new` loop panics. -/
theorem newLoop_eq_none : ∀ (xs : List α) (buf : List (Option α)) (i : Nat),
    xs ≠ [] → buf.length < i + xs.length → newLoop buf xs i = none
  | x :: rest, buf, i, _, h => by
    by_cases hi : i < buf.length
    · rw [newLoop, if_pos hi]
      cases rest with
      | nil => simp only [List.length_cons, List.length_nil] at h; omega
      | cons y t =>
        exact newLoop_eq_none (y :: t) _ (i + 1) (by simp)
          (by simp only [List.length_set, List.length_cons] at h ⊢; omega)
    · rw [newLoop, if_neg hi]

/-- Closed form of `new` in the non-panicking case. -/
theorem new_eq_some (xs : List α) (h : xs.length ≤ N) :
    (new xs : Option (ConstArray α N)) =
      some { buf := xs.map some ++ List.replicate (N - xs.length) none, len := xs.length } := by
  rw [new, newLoop_eq_some xs _ 0 (by simp; omega)]
  simp [List.drop_replicate]

/-- `uninit` is well-formed. -/
theorem wf_uninit : (uninit : ConstArray α N).wf := by
  constructor <;> simp [uninit]

/-- Any successfully constructed `new` result is well-formed. -/
theorem wf_new (xs : List α) (c : ConstArray α N) (h : new xs = some c) : c.wf := by
  by_cases hle : xs.length ≤ N
  · rw [new_eq_some xs hle] at h
    cases h
    constructor
    · simp; omega
    · simpa using hle
  · cases hxs : xs with
    | nil => simp [hxs] at hle
    | cons y t =>
      rw [new, newLoop_eq_none xs _ 0 (by simp [hxs]) (by simp; omega)] at h
      cases h

/-- `push_front` preserves well-formedness. -/
theorem wf_push_front (a : ConstArray α N) (v : α) (hw : a.wf) : (a.push_front v).2.wf := by
  obtain ⟨hb, hl⟩ := hw
  by_cases hf : a.is_full
  · simp [push_front, hf, wf, hb, hl]
  · have hlt : a.len < N := by
      simp only [is_full, beq_iff_eq] at hf; omega
    refine ⟨?_, ?_⟩ <;> simp [push_front, hf, wf, hb] <;> omega

/-- `push_back` preserves well-formedness. -/
theorem wf_push_back (a : ConstArray α N) (v : α) (hw : a.wf) : (a.push_back v).2.wf := by
  obtain ⟨hb, hl⟩ := hw
  by_cases hf : a.is_full
  · simp [push_back, hf, wf, hb, hl]
  · have hlt : a.len < N := by
      simp only [is_full, beq_iff_eq] at hf; omega
    refine ⟨?_, ?_⟩ <;> simp [push_back, hf, wf, hb] <;> omega

/-- `pop_front` preserves well-formedness. -/
theorem wf_pop_front (a : ConstArray α N) (hw : a.wf) : a.pop_front.2.wf := by
  obtain ⟨hb, hl⟩ := hw
  by_cases h0 : a.len = 0
  · simp [pop_front, h0, wf, hb, hl]
  · refine ⟨?_, ?_⟩ <;> simp [pop_front, h0, wf, hb] <;> omega

/-- `pop_back` preserves well-formedness. -/
theorem wf_pop_back (a : ConstArray α N) (hw : a.wf) : a.pop_back.2.wf := by
  obtain ⟨hb, hl⟩ := hw
  by_cases h0 : a.len = 0
  · simp [pop_back, h0, wf, hb, hl]
  · refine ⟨?_, ?_⟩ <;> simp [pop_back, h0, wf, hb] <;> omega

/-- Every state reachable through the safe public API is well-formed. -/
theorem reachable_wf (a : ConstArray α N) (h : Reachable a) : a.wf := by
  induction h with
  | uninit => exact wf_uninit
  | ofNew xs c hc => exact wf_new xs c hc
  | pushF a v _ ih => exact wf_push_front a v ih
  | pushB a v _ ih => exact wf_push_back a v ih
  | popF a _ ih => exact wf_pop_front a ih
  | popB a _ ih => exact wf_pop_back a ih

end ConstArray

namespace ConstArray

variable {α : Type} {N : Nat}

/-- Simulation invariant between a `ConstArray` state and the reference
deque contents: the buffer has all `N` slots and the occupied prefix is
exactly the deque, slot-wise initialized. -/
def SimInv (a : ConstArray α N) (l : List α) : Prop :=
  a.buf.length = N ∧ a.len = l.length ∧ a.buf.take a.len = l.map some

theorem SimInv.len_le {a : ConstArray α N} {l : List α} (h : SimInv a l) : a.len ≤ N := by
  obtain ⟨h1, h2, h3⟩ := h
  have hlen := congrArg List.length h3
  simp only [List.length_take, List.length_map, h1] at hlen
  omega

/-- One step of the operational simulation: each `Op` takes `SimInv`-related
states to `SimInv`-related states and produces matching outcomes. -/
theorem stepC_sim (a : ConstArray α N) (l : List α) (op : Op α) (h : SimInv a l) :
    SimInv (a.stepC op).1 (refStep N l op).1 ∧
    (a.stepC op).2 = ((refStep N l op).2).mapPopped some := by
  have hle := h.len_le
  obtain ⟨h1, h2, h3⟩ := h
  cases op with
  | pushF v =>
    by_cases hf : l.length = N
    · have hfull : a.is_full = true := by simp [is_full, h2, hf]
      have hstep : a.stepC (Op.pushF v) = (a, .rejected v) := by
        simp [stepC, push_front, hfull]
      have href : refStep N l (Op.pushF v) = (l, .rejected v) := by
        simp [refStep, hf]
      rw [hstep, href]
      exact ⟨⟨h1, h2, h3⟩, by simp [OpResult.mapPopped]⟩
    · have hlt : a.len < N := by omega
      have hnf : a.is_full = false := by simp [is_full]; omega
      have hstep : a.stepC (Op.pushF v) =
          ({ buf := some v :: (a.buf.take a.len ++ a.buf.drop (a.len + 1)),
             len := a.len + 1 }, .pushed) := by
        simp [stepC, push_front, hnf]
      have href : refStep N l (Op.pushF v) = (v :: l, .pushed) := by
        simp [refStep, hf]
      rw [hstep, href]
      refine ⟨⟨?_, ?_, ?_⟩, by simp [OpResult.mapPopped]⟩
      · simp [h1]; omega
      · simp [h2]
      · rw [List.take_succ_cons,
          List.take_append_of_le_length (by simp [List.length_take]; omega),
          List.take_take, Nat.min_self, h3]
        simp
  | pushB v =>
    by_cases hf : l.length = N
    · have hfull : a.is_full = true := by simp [is_full, h2, hf]
      have hstep : a.stepC (Op.pushB v) = (a, .rejected v) := by
        simp [stepC, push_back, hfull]
      have href : refStep N l (Op.pushB v) = (l, .rejected v) := by
        simp [refStep, hf]
      rw [hstep, href]
      exact ⟨⟨h1, h2, h3⟩, by simp [OpResult.mapPopped]⟩
    · have hlt : a.len < N := by omega
      have hnf : a.is_full = false := by simp [is_full]; omega
      have hstep : a.stepC (Op.pushB v) =
          ({ buf := a.buf.set a.len (some v), len := a.len + 1 }, .pushed) := by
        simp [stepC, push_back, hnf]
      have href : refStep N l (Op.pushB v) = (l ++ [v], .pushed) := by
        simp [refStep, hf]
      rw [hstep, href]
      refine ⟨⟨?_, ?_, ?_⟩, by simp [OpResult.mapPopped]⟩
      · simp [h1]
      · simp [h2]
      · rw [take_set_succ a.buf a.len (some v) (by omega), h3]
        simp
  | popF =>
    by_cases h0 : a.len = 0
    · have hl : l = [] := by
        cases l with
        | nil => rfl
        | cons x t => rw [h0] at h2; simp at h2
      subst hl
      have hstep : a.stepC Op.popF = (a, .isEmpty) := by
        simp [stepC, pop_front, h0]
      have href : refStep N ([] : List α) Op.popF = ([], .isEmpty) := by
        simp [refStep]
      rw [hstep, href]
      exact ⟨⟨h1, h2, h3⟩, by simp [OpResult.mapPopped]⟩
    · cases hl : l with
      | nil => subst hl; simp at h2; omega
      | cons x rest =>
        subst hl
        have hlen : a.len = rest.length + 1 := by simpa using h2
        have h00 : a.buf[0]? = some (some x) := by
          have hc := congrArg (fun t => t[0]?) h3
          simpa [List.getElem?_take, Nat.pos_of_ne_zero h0] using hc
        have hv : a.buf.getD 0 none = some x := by
          simp [h00]
        have hstep : a.stepC Op.popF =
            ({ buf := (a.buf.drop 1).take (a.len - 1) ++ a.buf.drop (a.len - 1),
               len := a.len - 1 }, .popped (a.buf.getD 0 none)) := by
          simp [stepC, pop_front, h0]
        have href : refStep N (x :: rest) Op.popF = (rest, .popped x) := by
          simp [refStep]
        rw [hstep, href]
        refine ⟨⟨?_, ?_, ?_⟩, by simp [OpResult.mapPopped, h00]⟩
        · simp [h1]; try omega
        · simp; try omega
        · rw [List.take_append_of_le_length (by simp [List.length_take, List.length_drop]; omega),
            List.take_take, Nat.min_self]
          have hdt : (a.buf.drop 1).take (a.len - 1) = (a.buf.take a.len).drop 1 := by
            rw [List.drop_take]
          rw [hdt, h3]
          simp
  | popB =>
    by_cases h0 : a.len = 0
    · have hl : l = [] := by
        cases l with
        | nil => rfl
        | cons x t => rw [h0] at h2; simp at h2
      subst hl
      have hstep : a.stepC Op.popB = (a, .isEmpty) := by
        simp [stepC, pop_back, h0]
      have href : refStep N ([] : List α) Op.popB = ([], .isEmpty) := by
        simp [refStep]
      rw [hstep, href]
      exact ⟨⟨h1, h2, h3⟩, by simp [OpResult.mapPopped]⟩
    · have hne : l ≠ [] := by
        intro hl
        rw [hl] at h2
        simp at h2
        omega
      have hlast : l.getLast? = some (l.getLast hne) := List.getLast?_eq_getLast l hne
      have hx : l[a.len - 1]? = some (l.getLast hne) := by
        have he : a.len - 1 = l.length - 1 := by omega
        rw [he, ← List.getLast?_eq_getElem?]
        exact hlast
      have h00 : a.buf[a.len - 1]? = some (some (l.getLast hne)) := by
        have hc := congrArg (fun t => t[a.len - 1]?) h3
        simp only [List.getElem?_take, List.getElem?_map] at hc
        rw [if_pos (by omega)] at hc
        rw [hc, hx]
        rfl
      have htk : List.take (a.len - 1) a.buf = List.map some l.dropLast := by
        have ht2 : List.take (a.len - 1) a.buf
            = List.take (a.len - 1) (List.take a.len a.buf) := by
          rw [List.take_take]
          congr 1
          omega
        rw [ht2, h3, List.dropLast_eq_take, List.map_take]
        congr 1
        omega
      have hstep : a.stepC Op.popB =
          ({ buf := a.buf, len := a.len - 1 }, .popped (a.buf.getD (a.len - 1) none)) := by
        simp [stepC, pop_back, h0]
      have href : refStep N l Op.popB = (l.dropLast, .popped (l.getLast hne)) := by
        simp [refStep, hlast]
      rw [hstep, href]
      refine ⟨⟨h1, ?_, ?_⟩, by simp [OpResult.mapPopped, h00]⟩
      · simp [List.length_dropLast]; omega
      · simpa using htk

end ConstArray

namespace ConstArray

variable {α : Type} {N : Nat}

/-- Multi-step simulation: running any operation sequence preserves the
invariant and produces element-wise matching outcome lists. -/
theorem runC_sim : ∀ (ops : List (Op α)) (a : ConstArray α N) (l : List α),
    SimInv a l →
    SimInv (a.runC ops).1 (refRun N l ops).1 ∧
    (a.runC ops).2 = ((refRun N l ops).2).map (OpResult.mapPopped some)
  | [], a, l, h => by simpa [runC, refRun] using h
  | op :: rest, a, l, h => by
    have hstep := stepC_sim a l op h
    have hrec := runC_sim rest (a.stepC op).1 (refStep N l op).1 hstep.1
    simp only [runC, refRun, List.map_cons]
    exact ⟨hrec.1, by rw [hrec.2, hstep.2]⟩

/-- The empty container simulates the empty deque. -/
theorem simInv_uninit : SimInv (uninit : ConstArray α N) [] :=
  ⟨by simp [uninit], by simp [uninit], by simp [uninit]⟩

/-- Push sequences preserve well-formedness. -/
theorem wf_runPushOps : ∀ (ops : List (PushOp α)) (a : ConstArray α N),
    a.wf → (a.runPushOps ops).wf
  | [], _, hw => hw
  | .front v :: rest, a, hw => wf_runPushOps rest _ (wf_push_front a v hw)
  | .back v :: rest, a, hw => wf_runPushOps rest _ (wf_push_back a v hw)

/-- A push to the front of a full container is a pure rejection. -/
theorem push_front_full (a : ConstArray α N) (v : α) (h : a.len = N) :
    a.push_front v = (.error v, a) := by
  simp [push_front, is_full, h]

/-- A push to the back of a full container is a pure rejection. -/
theorem push_back_full (a : ConstArray α N) (v : α) (h : a.len = N) :
    a.push_back v = (.error v, a) := by
  simp [push_back, is_full, h]

end ConstArray

open ConstArray

/-- C1: the claim states that `get(index)` returns a value exactly when
`index < count`, so `get(0)` on an empty container yields "absent".  The
code's test is `index <= self.len()`, so on the fresh empty
`ConstArray<u32, 16>` the call `get(0)` takes the success branch and returns
`Some` of a reference to the uninitialized slot 0 (undefined behavior)
instead of `None` — contradicting the code's own safety comment that "only
valid items can be retrieved". -/
theorem get_on_empty_returns_uninit_ref :
    get (uninit : ConstArray Nat 16) 0 = ReadResult.ref none := by
  decide

/-- C2: the claim states `clone()` duplicates the original's elements.  The
code's loop clones `new_arr.get(i)` — a slot of the array under
construction, uninitialized at iteration `i` — instead of `self.get(i)`.
On a `ConstArray<u32, 4>` holding `[1, 2, 3]` (which `new` builds
successfully), the very first iteration dereferences and clones
uninitialized memory (undefined behavior, modelled as `none`). -/
theorem clone_reads_uninit_slots :
    ((new [1, 2, 3] : Option (ConstArray Nat 4)).map clone) = some none := by
  decide

/-- C3: the claim states a construction attempt with `W > N` is rejected at
the compile/type level and that type-checking instantiations never panic.
`ConstArray::<u32, 2>::new([1, 2, 3])` type-checks (nothing relates `W` and
`N`, despite the source comment "We already checked that W < N") and the
write loop panics at runtime indexing `buf[2]` of a 2-slot buffer —
modelled by `new` returning `none`. -/
theorem new_oversized_panics :
    (new [1, 2, 3] : Option (ConstArray Nat 2)) = none := by
  decide

/-- C4: from any state reachable through the public API, after any sequence
of `push_front`/`push_back` operations, `len() ≤ capacity()` holds (the
quantification over `ops` covers every intermediate state, each being the
result of a prefix), and whenever `len() = capacity()` both pushes fail,
hand back their argument, and leave the container — hence `len()` and
`as_slice()` — exactly unchanged. -/
theorem pushes_bounded_and_full_pushes_reject (a : ConstArray α N)
    (h : Reachable a) (ops : List (PushOp α)) :
    (a.runPushOps ops).len ≤ N ∧
    ((a.runPushOps ops).len = N → ∀ v : α,
      (a.runPushOps ops).push_front v = (.error v, a.runPushOps ops) ∧
      (a.runPushOps ops).push_back v = (.error v, a.runPushOps ops)) := by
  have hw := wf_runPushOps ops a (reachable_wf a h)
  exact ⟨hw.2, fun hfull v =>
    ⟨push_front_full _ v hfull, push_back_full _ v hfull⟩⟩

/-- Witness for C4 at a concrete input: capacity 1, one successful push,
after which both pushes are rejected without mutation. -/
theorem pushes_bounded_and_full_pushes_reject_witness :
    (runPushOps (uninit : ConstArray Nat 1) [PushOp.back 5]).len ≤ 1 ∧
    push_front (runPushOps (uninit : ConstArray Nat 1) [PushOp.back 5]) 7
      = (.error 7, runPushOps (uninit : ConstArray Nat 1) [PushOp.back 5]) ∧
    push_back (runPushOps (uninit : ConstArray Nat 1) [PushOp.back 5]) 7
      = (.error 7, runPushOps (uninit : ConstArray Nat 1) [PushOp.back 5]) := by
  have h := pushes_bounded_and_full_pushes_reject
    (uninit : ConstArray Nat 1) Reachable.uninit [PushOp.back 5]
  exact ⟨h.1, (h.2 (by decide) 7).1, (h.2 (by decide) 7).2⟩

/-- C5: for every interleaved sequence of the four operations starting from
the empty container, `as_slice()` equals the reference deque's contents
(slot-wise initialized with the same values), and every operation — in
particular every pop — returns the same outcome as the reference deque.
Universality over `ops` covers the state after each step of a sequence. -/
theorem deque_refinement (ops : List (Op α)) :
    as_slice ((uninit : ConstArray α N).runC ops).1
      = ((refRun N ([] : List α) ops).1).map some ∧
    ((uninit : ConstArray α N).runC ops).2
      = ((refRun N ([] : List α) ops).2).map (OpResult.mapPopped some) := by
  have h := runC_sim ops (uninit : ConstArray α N) [] simInv_uninit
  exact ⟨h.1.2.2, h.2⟩

/-- C6: with capacity at least 3, pushing `x, y, z` by `push_back` and
draining by `pop_front` yields `x, y, z`; pushing them by `push_front` and
draining by `pop_front` yields `z, y, x`. -/
theorem fifo_lifo_duality (h : 3 ≤ N) (x y z : α) :
    ((uninit : ConstArray α N).runC
        [Op.pushB x, Op.pushB y, Op.pushB z, Op.popF, Op.popF, Op.popF]).2
      = [.pushed, .pushed, .pushed,
         .popped (some x), .popped (some y), .popped (some z)] ∧
    ((uninit : ConstArray α N).runC
        [Op.pushF x, Op.pushF y, Op.pushF z, Op.popF, Op.popF, Op.popF]).2
      = [.pushed, .pushed, .pushed,
         .popped (some z), .popped (some y), .popped (some x)] := by
  have e0 : ((0 : Nat) = N) = False := by simp; omega
  have e1 : ((1 : Nat) = N) = False := by simp; omega
  have e2 : ((2 : Nat) = N) = False := by simp; omega
  constructor
  · rw [(runC_sim [Op.pushB x, Op.pushB y, Op.pushB z, Op.popF, Op.popF, Op.popF]
      (uninit : ConstArray α N) [] simInv_uninit).2]
    simp [refRun, refStep, e0, e1, e2, OpResult.mapPopped]
  · rw [(runC_sim [Op.pushF x, Op.pushF y, Op.pushF z, Op.popF, Op.popF, Op.popF]
      (uninit : ConstArray α N) [] simInv_uninit).2]
    simp [refRun, refStep, e0, e1, e2, OpResult.mapPopped]

/-- Witness for C6 at capacity 3 with values 1, 2, 3. -/
theorem fifo_lifo_duality_witness :
    3 ≤ 3 ∧
    (((uninit : ConstArray Nat 3).runC
        [Op.pushB 1, Op.pushB 2, Op.pushB 3, Op.popF, Op.popF, Op.popF]).2
      = [.pushed, .pushed, .pushed,
         .popped (some 1), .popped (some 2), .popped (some 3)] ∧
    ((uninit : ConstArray Nat 3).runC
        [Op.pushF 1, Op.pushF 2, Op.pushF 3, Op.popF, Op.popF, Op.popF]).2
      = [.pushed, .pushed, .pushed,
         .popped (some 3), .popped (some 2), .popped (some 1)]) :=
  ⟨by decide, fifo_lifo_duality (by decide) 1 2 3⟩

/-- C7: pushing to the front of a non-full well-formed container succeeds,
increments `len`, and the new slice is the pushed value followed by the old
contents in order (the occupied slots were shifted right by one). -/
theorem push_front_shifts_right (a : ConstArray α N) (v : α)
    (hw : a.wf) (hnf : a.len ≠ N) :
    (a.push_front v).1 = .ok () ∧
    (a.push_front v).2.len = a.len + 1 ∧
    (a.push_front v).2.as_slice = some v :: a.as_slice := by
  obtain ⟨h1, h2⟩ := hw
  have hlt : a.len < N := by omega
  have hf : a.is_full = false := by simp [is_full]; omega
  refine ⟨by simp [push_front, hf], by simp [push_front, hf], ?_⟩
  simp only [push_front, hf, Bool.false_eq_true, if_false, as_slice]
  rw [List.take_succ_cons,
    List.take_append_of_le_length (by simp [List.length_take]; omega),
    List.take_take, Nat.min_self]

/-- Witness for C7: pushing 9 onto a capacity-3 container holding `[1, 2]`. -/
theorem push_front_shifts_right_witness :
    (({ buf := [some 1, some 2, none], len := 2 } : ConstArray Nat 3).wf ∧
      ({ buf := [some 1, some 2, none], len := 2 } : ConstArray Nat 3).len ≠ 3) ∧
    (push_front ({ buf := [some 1, some 2, none], len := 2 } : ConstArray Nat 3) 9).1 = .ok () ∧
    (push_front ({ buf := [some 1, some 2, none], len := 2 } : ConstArray Nat 3) 9).2.len = 2 + 1 ∧
    (push_front ({ buf := [some 1, some 2, none], len := 2 } : ConstArray Nat 3) 9).2.as_slice
      = some 9 :: ({ buf := [some 1, some 2, none], len := 2 } : ConstArray Nat 3).as_slice :=
  ⟨⟨by decide, by decide⟩,
    push_front_shifts_right _ 9 (by decide) (by decide)⟩

/-- C8: constructing from a sequence of length `k ≤ N` succeeds and the
result has slice exactly the sequence, `len = k`, `capacity = N`. -/
theorem from_sequence_round_trip (xs : List α) (h : xs.length ≤ N) :
    ∃ c : ConstArray α N, new xs = some c ∧
      c.as_slice = xs.map some ∧ c.len = xs.length ∧ c.capacity = N := by
  refine ⟨_, new_eq_some xs h, ?_, rfl, rfl⟩
  rw [as_slice]
  simp only []
  rw [List.take_append_of_le_length (by simp), List.take_of_length_le (by simp)]

/-- Witness for C8: `[10, 20]` into capacity 3. -/
theorem from_sequence_round_trip_witness :
    ([10, 20] : List Nat).length ≤ 3 ∧
    (∃ c : ConstArray Nat 3, new [10, 20] = some c ∧
      c.as_slice = [10, 20].map some ∧ c.len = [10, 20].length ∧ c.capacity = 3) :=
  ⟨by decide, from_sequence_round_trip [10, 20] (by decide)⟩

/-- C9: dropping a well-formed container tears down exactly the occupied
slots `[0, count)`, in index order (the teardown trace equals `as_slice`),
and then sets `count = 0`; consuming the container through `into_raw_parts`
or `to_array` runs no teardown at all (`mem::forget`). -/
theorem teardown_exactly_occupied (a : ConstArray α N) (hw : a.wf) :
    (drop_run a).1 = a.as_slice ∧ (drop_run a).2.len = 0 ∧
    a.into_raw_parts_teardowns = [] ∧ a.to_array_teardowns = [] := by
  obtain ⟨h1, h2⟩ := hw
  refine ⟨?_, rfl, rfl, rfl⟩
  apply List.ext_getElem
  · simp [drop_run, as_slice, h1]
    omega
  · intro i hi1 hi2
    simp only [drop_run, as_slice, List.getElem_map, List.getElem_range, List.getElem_take]
    have hi : i < a.buf.length := by
      simp [drop_run] at hi1
      omega
    simp [List.getD, List.getElem?_eq_getElem hi]

/-- Witness for C9: a capacity-3 container holding `[5, 6]`. -/
theorem teardown_exactly_occupied_witness :
    ({ buf := [some 5, some 6, none], len := 2 } : ConstArray Nat 3).wf ∧
    (drop_run ({ buf := [some 5, some 6, none], len := 2 } : ConstArray Nat 3)).1
      = ({ buf := [some 5, some 6, none], len := 2 } : ConstArray Nat 3).as_slice ∧
    (drop_run ({ buf := [some 5, some 6, none], len := 2 } : ConstArray Nat 3)).2.len = 0 ∧
    into_raw_parts_teardowns ({ buf := [some 5, some 6, none], len := 2 } : ConstArray Nat 3) = [] ∧
    to_array_teardowns ({ buf := [some 5, some 6, none], len := 2 } : ConstArray Nat 3) = [] :=
  ⟨by decide, teardown_exactly_occupied _ (by decide)⟩

/-- C10: `into_raw_parts` hands back exactly the backing buffer and the
current count, and `from_raw_parts` of that pair rebuilds the very same
container. -/
theorem raw_parts_round_trip (a : ConstArray α N) :
    a.into_raw_parts = (a.buf, a.len) ∧
    from_raw_parts a.into_raw_parts.1 a.into_raw_parts.2 = a :=
  ⟨rfl, rfl⟩
